import Mathlib

/-!
Shallow embedding of the EMC_NodeAnalysis nonlinear magnetic-circuit solver
(src/emc/analysis.py, src/emc/circuit.py, src/emc/components/Permeance.py,
src/emc/components/sources/MMFSource.py, src/emc/components/sources/PHISource.py,
src/emc/non_linear_bh.py), together with theorems checking the natural-language
specification against it.

Conventions of the embedding:
* Python floats are modelled as real numbers.
* `numpy` vectors of shape (n,1) are `Fin n → ℝ`; `numpy` square matrices are
  `Matrix (Fin n) (Fin n) ℝ`.
* `np.linalg.solve` is modelled as the exact solve `A⁻¹ ⬝ b`, returning `none`
  (the `LinAlgError` raised on a singular matrix) when `det A = 0`.
* `np.linalg.norm` is the Euclidean norm.
* Python dict `Circuit.nodes_dict`, which stores both the `int_node → ext_node`
  and the `ext_node → int_node` direction for every node, is modelled as the
  list of `(ext_name, int_node)` pairs in insertion order; the Python
  `len(nodes_dict)` is twice the length of that list (string keys and integer
  keys can never collide in the Python dict).
* In-place mutation of `self` (the circuit) is modelled by returning the new
  circuit state; methods that can raise return the state paired with an
  optional error (`Circuit × Option String`) or an `Except`.
* Out-of-range numpy indexing (which would raise `IndexError` in Python) is
  modelled by a default-0 read and a dropped write; no claim exercises an
  out-of-range index.
-/

namespace EMC

/-- Modelled from the spec: `src/emc/constants.py` is not in the source tree;
the spec calls `mu0` the vacuum permeability (`B_ex = B_max + mu0*(H_ex - H_max)`
with "asymptotic slope equal to vacuum permeability"), i.e. `4π·10⁻⁷`. -/
noncomputable def mu0 : ℝ := 4 * Real.pi * 1e-7

/-- Embedding of `fp` from src/emc/non_linear_bh.py: forward finite difference with step
`eps = 1e-3`. -/
noncomputable def fp (f : ℝ → ℝ) (x : ℝ) : ℝ := (f (x + 1e-3) - f x) / 1e-3

/-- The `bh_model` class of src/emc/non_linear_bh.py after construction:
`hb` is the fitted `B(H)` spline (`inter_HB_curve`), `hu` the fitted
`u(H) = B/H` spline (`inter_Hucurve`).  The claims under verification are
about the methods `mur`, `dmu_dH`, `mur_d`, which treat the two fitted
interpolants as black-box functions, so the model carries them abstractly. -/
structure bh_model where
  hb : ℝ → ℝ
  hu : ℝ → ℝ

/-- Embedding of `bh_model.mur` from src/emc/non_linear_bh.py. -/
noncomputable def bh_model.mur (m : bh_model) (H : ℝ) : ℝ :=
  if H > 0 then m.hb H / H / mu0 else m.hb 1 / mu0

/-- Embedding of `bh_model.dmu_dH` from src/emc/non_linear_bh.py. -/
noncomputable def bh_model.dmu_dH (m : bh_model) (H : ℝ) : ℝ := fp m.hu H

/-- Embedding of `bh_model.mur_d` from src/emc/non_linear_bh.py:
`mur_d = mur + (dmu_dH(H)/mu0) * H`. -/
noncomputable def bh_model.mur_d (m : bh_model) (H : ℝ) : ℝ :=
  m.mur H + m.dmu_dH H / mu0 * H

/-- Vectors: numpy arrays of shape (n,1). -/
abbrev Vec (n : ℕ) := Fin n → ℝ

/-- Square matrices of size n. -/
abbrev Mat (n : ℕ) := Matrix (Fin n) (Fin n) ℝ

/-- Read `x[i]`; Python raises `IndexError` out of range, modelled as 0. -/
def vget {n : ℕ} (x : Vec n) (i : ℕ) : ℝ :=
  if h : i < n then x ⟨i, h⟩ else 0

/-- Write `x[i] = v`; a write out of range is dropped. -/
def vset {n : ℕ} (x : Vec n) (i : ℕ) (v : ℝ) : Vec n :=
  fun a => if a.val = i then v else x a

/-- Embedding of `x[i] = x[i] + v`. -/
def vadd {n : ℕ} (x : Vec n) (i : ℕ) (v : ℝ) : Vec n :=
  vset x i (vget x i + v)

/-- Read `M[i, j]`. -/
def mget {n : ℕ} (M : Mat n) (i j : ℕ) : ℝ :=
  if h : i < n ∧ j < n then M ⟨i, h.1⟩ ⟨j, h.2⟩ else 0

/-- Write `M[i, j] = v`. -/
def mset {n : ℕ} (M : Mat n) (i j : ℕ) (v : ℝ) : Mat n :=
  fun a b => if a.val = i ∧ b.val = j then v else M a b

/-- Embedding of `M[i, j] = M[i, j] + v`. -/
def madd {n : ℕ} (M : Mat n) (i j : ℕ) (v : ℝ) : Mat n :=
  mset M i j (mget M i j + v)

/-- Embedding of `np.linalg.norm`: Euclidean norm of a vector. -/
noncomputable def npNorm {n : ℕ} (v : Vec n) : ℝ :=
  Real.sqrt (∑ i, v i ^ 2)

/-- Embedding of `np.linalg.solve A b`: the exact solution `A⁻¹ ⬝ b` of `A·x = b`;
`none` models the `numpy.linalg.LinAlgError` raised on a singular matrix. -/
noncomputable def npSolve {n : ℕ} (A : Mat n) (b : Vec n) : Option (Vec n) :=
  if A.det = 0 then none else some (A⁻¹.mulVec b)

/-- The `Permeance` component of src/emc/components/Permeance.py.
Internal node ids are naturals, ground = 0.  `__init__` sets
`mur_d = mur`; the solver may overwrite both each pass. -/
structure Permeance where
  part_id : String
  n1 : ℕ
  n2 : ℕ
  mur : ℝ
  mur_d : ℝ
  w : ℝ
  d : ℝ
  l : ℝ
  model_label : Option String

/-- Embedding of `Permeance.P`: `(mu0 * mur * w * d) / l * 1e-3`. -/
noncomputable def Permeance.P (p : Permeance) : ℝ :=
  mu0 * p.mur * p.w * p.d / p.l * 1e-3

/-- Embedding of `Permeance.dP`: same formula with `mur_d`. -/
noncomputable def Permeance.dP (p : Permeance) : ℝ :=
  mu0 * p.mur_d * p.w * p.d / p.l * 1e-3

/-- Embedding of `Permeance.MMF(ports_v)`: potential difference across the terminals,
a ground terminal (internal id 0, so Python `n1 - 1 < 0`) contributing 0. -/
def Permeance.MMF {n : ℕ} (p : Permeance) (ports_v : Vec n) : ℝ :=
  (if 1 ≤ p.n1 then vget ports_v (p.n1 - 1) else 0) -
  (if 1 ≤ p.n2 then vget ports_v (p.n2 - 1) else 0)

/-- Embedding of `Permeance.PHI(ports_v) = MMF * P`. -/
noncomputable def Permeance.PHI {n : ℕ} (p : Permeance) (ports_v : Vec n) : ℝ :=
  p.MMF ports_v * p.P

/-- Embedding of `Permeance.B(ports_v) = mu0 * mur * MMF / l * 1000`. -/
noncomputable def Permeance.B {n : ℕ} (p : Permeance) (ports_v : Vec n) : ℝ :=
  mu0 * p.mur * p.MMF ports_v / p.l * 1000

/-- Embedding of `Permeance.H(ports_v) = MMF / l * 1000`. -/
noncomputable def Permeance.H {n : ℕ} (p : Permeance) (ports_v : Vec n) : ℝ :=
  p.MMF ports_v / p.l * 1000

/-- The `MMFSource` component of src/emc/components/sources/MMFSource.py. -/
structure MMFSource where
  part_id : String
  n1 : ℕ
  n2 : ℕ
  value : ℝ

/-- Embedding of `MMFSource.MMF() = value`. -/
def MMFSource.MMF (s : MMFSource) : ℝ := s.value

/-- The `PHISource` component of src/emc/components/sources/PHISource.py. -/
structure PHISource where
  part_id : String
  n1 : ℕ
  n2 : ℕ
  value : ℝ

/-- Embedding of `PHISource.PHI() = value`. -/
def PHISource.PHI (s : PHISource) : ℝ := s.value

/-- The closed kind of elements a circuit holds (stamping's `else` branch,
which only prints "BUG - Unknown linear element." and stamps nothing, is
unreachable for this type). -/
inductive Element where
  | permeance (p : Permeance)
  | mmfSource (s : MMFSource)
  | phiSource (s : PHISource)

/-- The `Circuit` class of src/emc/circuit.py (a Python `list` of elements with
`title`, `nodes_dict`, `models`; `filename`, `internal_nodes`, `gnd` are unused
by the verified operations). -/
structure Circuit where
  title : String
  elements : List Element
  nodes_dict : List (String × ℕ)
  models : List (String × bh_model)

/-- A freshly constructed `Circuit(title)`. -/
def emptyCircuit (title : String) : Circuit :=
  { title := title, elements := [], nodes_dict := [], models := [] }

/-- Embedding of `Circuit.get_nodes_number`: `int(len(nodes_dict) / 2)`, i.e. the number of
registered nodes (the dict holds two entries per node). -/
def get_nodes_number (c : Circuit) : ℕ := c.nodes_dict.length

/-- Embedding of `Circuit.create_node(name)` from src/emc/circuit.py: raises `ValueError`
whenever `name` is already a key of `nodes_dict` (there is no exemption for
the ground name in the code, despite the docstring). -/
def create_node (c : Circuit) (name : String) : Except String Circuit :=
  let got_ref := c.nodes_dict.any (fun q => q.2 == 0)
  if c.nodes_dict.any (fun q => q.1 == name) then
    Except.error "ValueError: node exists"
  else
    let int_node := if name = "0" then 0
      else c.nodes_dict.length + (if got_ref then 0 else 1)
    Except.ok { c with nodes_dict := c.nodes_dict ++ [(name, int_node)] }

/-- Embedding of `Circuit.add_node(ext_name)` from src/emc/circuit.py: idempotent; returns
the assigned internal id and the (possibly grown) circuit. -/
def add_node (c : Circuit) (ext_name : String) : ℕ × Circuit :=
  match c.nodes_dict.find? (fun q => q.1 == ext_name) with
  | some q => (q.2, c)
  | none =>
    let int_node := if ext_name = "0" then 0
      else
        let got_ref := c.nodes_dict.any (fun q => q.2 == 0)
        c.nodes_dict.length + (if got_ref then 0 else 1)
    (int_node, { c with nodes_dict := c.nodes_dict ++ [(ext_name, int_node)] })

/-- Model-registry lookup `circ.models[label]` (as an `Option`). -/
def lookupModel (ms : List (String × bh_model)) (lbl : String) : Option bh_model :=
  (ms.find? (fun q => q.1 == lbl)).map (fun q => q.2)

/-- Embedding of `Circuit.add_permeance` from src/emc/circuit.py.  The two node names are
resolved (and created if absent) *before* the parameter checks, so a raising
call still leaves the created nodes behind.  Result: the circuit state after
the call, paired with the raised error if any. -/
noncomputable def add_permeance (c : Circuit) (part_id n1 n2 : String)
    (mur w d l : ℝ) (model_label : Option String) : Circuit × Option String :=
  let r1 := add_node c n1
  let r2 := add_node r1.2 n2
  let elem : Permeance :=
    ⟨part_id, r1.1, r2.1, mur, mur, w, d, l, model_label⟩
  if w = 0 ∨ d = 0 ∨ l = 0 then
    (r2.2, some "CircuitError: permeance parameters not allowed")
  else
    match model_label with
    | some lbl =>
      if (lookupModel r2.2.models lbl).isNone then
        (r2.2, some "ModelError: unknown BH model id")
      else
        ({ r2.2 with elements := r2.2.elements ++ [Element.permeance elem] }, none)
    | none =>
      ({ r2.2 with elements := r2.2.elements ++ [Element.permeance elem] }, none)

/-- Embedding of `Circuit.add_mmf_source` from src/emc/circuit.py. -/
def add_mmf_source (c : Circuit) (part_id n1 n2 : String) (value : ℝ) : Circuit :=
  let r1 := add_node c n1
  let r2 := add_node r1.2 n2
  let elem : MMFSource := ⟨part_id, r1.1, r2.1, value⟩
  { r2.2 with elements := r2.2.elements ++ [Element.mmfSource elem] }

/-- Embedding of `Circuit.add_phi_source` from src/emc/circuit.py. -/
def add_phi_source (c : Circuit) (part_id n1 n2 : String) (value : ℝ) : Circuit :=
  let r1 := add_node c n1
  let r2 := add_node r1.2 n2
  let elem : PHISource := ⟨part_id, r1.1, r2.1, value⟩
  { r2.2 with elements := r2.2.elements ++ [Element.phiSource elem] }

/-- Embedding of `Circuit.get_MMFs_number` from src/emc/circuit.py. -/
def get_MMFs_number (c : Circuit) : ℕ :=
  c.elements.foldl (fun count e =>
    match e with
    | Element.mmfSource _ => count + 1
    | _ => count) 0

/-- Body of the `update_mur` loop of src/emc/analysis.py applied to one
element: a `Permeance` bound to a model has its operating point recomputed
(`H = abs(elem.H(x))`) and its `mur`, `mur_d` refreshed from the model.
An absent model label would raise `KeyError` in Python (unreachable through
`add_permeance`); modelled as the identity. -/
noncomputable def update_one {n : ℕ} (models : List (String × bh_model))
    (x : Vec n) (e : Element) : Element :=
  match e with
  | Element.permeance p =>
    match p.model_label with
    | some lbl =>
      match lookupModel models lbl with
      | some m =>
        let H := |Permeance.H p x|
        Element.permeance { p with mur := m.mur H, mur_d := m.mur_d H }
      | none => Element.permeance p
    | none => Element.permeance p
  | e => e

/-- Embedding of `update_mur(circ, x)` from src/emc/analysis.py (the in-place mutation of
the circuit's permeances is modelled by returning the new circuit). -/
noncomputable def update_mur {n : ℕ} (c : Circuit) (x : Vec n) : Circuit :=
  { c with elements := c.elements.map (update_one c.models x) }

/-- First stamping loop of `make_system_matrix`: `Permeance` stamps `A`/`dA`,
`PHISource` stamps `b`, `MMFSource` is deferred.  Python `n1 - 1 >= 0` is
`1 ≤ n1` on naturals. -/
noncomputable def stamp1 {n : ℕ} (acc : Mat n × Mat n × Vec n) (e : Element) :
    Mat n × Mat n × Vec n :=
  let A := acc.1
  let dA := acc.2.1
  let b := acc.2.2
  match e with
  | Element.permeance p =>
    let A := if 1 ≤ p.n1 then madd A (p.n1 - 1) (p.n1 - 1) (1.0 * p.P) else A
    let dA := if 1 ≤ p.n1 then madd dA (p.n1 - 1) (p.n1 - 1) (1.0 * p.dP) else dA
    let A := if 1 ≤ p.n2 then madd A (p.n2 - 1) (p.n2 - 1) (1.0 * p.P) else A
    let dA := if 1 ≤ p.n2 then madd dA (p.n2 - 1) (p.n2 - 1) (1.0 * p.dP) else dA
    let A := if 1 ≤ p.n1 ∧ 1 ≤ p.n2 then
        madd (madd A (p.n1 - 1) (p.n2 - 1) (-(1.0 * p.P)))
          (p.n2 - 1) (p.n1 - 1) (-(1.0 * p.P)) else A
    let dA := if 1 ≤ p.n1 ∧ 1 ≤ p.n2 then
        madd (madd dA (p.n1 - 1) (p.n2 - 1) (-(1.0 * p.dP)))
          (p.n2 - 1) (p.n1 - 1) (-(1.0 * p.dP)) else dA
    (A, dA, b)
  | Element.phiSource s =>
    let b := if 1 ≤ s.n1 then vadd b (s.n1 - 1) s.PHI else b
    let b := if 1 ≤ s.n2 then vadd b (s.n2 - 1) (-(s.PHI)) else b
    (A, dA, b)
  | Element.mmfSource _ => (A, dA, b)

/-- Second stamping loop of `make_system_matrix`: each `MMFSource`, in element
order, takes the next auxiliary index (KCL column, KVL row, rhs entry) —
note these are plain assignments, not `+=`, in the source. -/
def stampMMF {n : ℕ} (acc : ℕ × Mat n × Mat n × Vec n) (e : Element) :
    ℕ × Mat n × Mat n × Vec n :=
  let index := acc.1
  let A := acc.2.1
  let dA := acc.2.2.1
  let b := acc.2.2.2
  match e with
  | Element.mmfSource s =>
    let A := if 1 ≤ s.n1 then mset A (s.n1 - 1) index 1.0 else A
    let dA := if 1 ≤ s.n1 then mset dA (s.n1 - 1) index 1.0 else dA
    let A := if 1 ≤ s.n2 then mset A (s.n2 - 1) index (-1.0) else A
    let dA := if 1 ≤ s.n2 then mset dA (s.n2 - 1) index (-1.0) else dA
    let A := if 1 ≤ s.n1 then mset A index (s.n1 - 1) 1.0 else A
    let dA := if 1 ≤ s.n1 then mset dA index (s.n1 - 1) 1.0 else dA
    let A := if 1 ≤ s.n2 then mset A index (s.n2 - 1) (-1.0) else A
    let dA := if 1 ≤ s.n2 then mset dA index (s.n2 - 1) (-1.0) else dA
    let b := vset b index (1.0 * s.MMF)
    (index + 1, A, dA, b)
  | _ => (index, A, dA, b)

/-- Embedding of `make_system_matrix(circ, u_prev)` from src/emc/analysis.py.  Returns the
mutated circuit (Python mutates `circ` in place via `update_mur`), the
differential matrix `dA` and the adjusted right-hand side `b - A·u_prev`. -/
noncomputable def make_system_matrix {n : ℕ} (c : Circuit) (u_prev : Vec n) :
    Circuit × Mat n × Vec n :=
  let c1 := update_mur c u_prev
  let s1 := c1.elements.foldl stamp1 (fun _ _ => 0, fun _ _ => 0, fun _ => 0)
  let s2 := c1.elements.foldl stampMMF (get_nodes_number c1 - 1, s1)
  let A := s2.2.1
  let dA := s2.2.2.1
  let b := s2.2.2.2
  (c1, dA, fun i => b i - A.mulVec u_prev i)

/-- Embedding of `n_matrix_size = circ.get_nodes_number() + circ.get_MMFs_number() - 1`
(step 1 of `solve_circuit`). -/
def n_matrix_size (c : Circuit) : ℕ :=
  get_nodes_number c + get_MMFs_number c - 1

/-- The iterate update of `solve_circuit`: `x = dx` on the first pass
(`iter == 0`), `x = x + gamma*dx` on every later pass. -/
def nextIterate {n : ℕ} (gamma : ℝ) (x : Vec n) (iter : ℕ) (dx : Vec n) : Vec n :=
  if iter = 0 then dx else fun i => x i + gamma * dx i

/-- The `while True` loop of `solve_circuit` from src/emc/analysis.py, with
the mutable loop state (`x`, `norm`, `iter`) made explicit.  `none` models
the `LinAlgError` escaping from `np.linalg.solve`.  The loop always
terminates because the `iter > 2000` disjunct forces a break. -/
noncomputable def solveLoop {n : ℕ} (gamma : ℝ) (c : Circuit) (x : Vec n)
    (norm : ℝ) (iter : ℕ) : Option (Vec n) :=
  let r := make_system_matrix c x
  match npSolve r.2.1 r.2.2 with
  | none => none
  | some dx =>
    let x' := nextIterate gamma x iter dx
    let err0 := npNorm dx
    let norm1 := if iter = 0 then err0 else norm
    let err := err0 / norm1
    let norm2 := npNorm x'
    if err < 0.001 ∨ iter > 2000 then some x'
    else solveLoop gamma r.1 x' norm2 (iter + 1)
termination_by 2001 - iter
decreasing_by
  rename_i h
  rw [not_or] at h
  omega

/-- Embedding of `solve_circuit(circ, gamma)` from src/emc/analysis.py: `x` initialized to
the zero vector of size `n_nodes + n_MMFs - 1`, then the Newton-type loop. -/
noncomputable def solve_circuit (c : Circuit) (gamma : ℝ) :
    Option (Vec (n_matrix_size c)) :=
  solveLoop gamma c (fun _ => 0) 0 0

/-! ### Definitions written from the words of the spec/claims, for comparison
with the source embedding above. -/

/-- The convergence loop as claim C1 describes it: `e0` is the norm of `dx`
at the first pass and stays the denominator on every subsequent pass
(`e = norm(dx)/e0`); stop on `e < 0.001` or `iter > 2000`.  This is the
claimed behaviour, to be compared against `solveLoop`. -/
noncomputable def solveLoopFixedDen {n : ℕ} (gamma : ℝ) (c : Circuit) (x : Vec n)
    (e0 : ℝ) (iter : ℕ) : Option (Vec n) :=
  let r := make_system_matrix c x
  match npSolve r.2.1 r.2.2 with
  | none => none
  | some dx =>
    let x' := if iter = 0 then dx else fun i => x i + gamma * dx i
    let e0' := if iter = 0 then npNorm dx else e0
    let e := npNorm dx / e0'
    if e < 0.001 ∨ iter > 2000 then some x'
    else solveLoopFixedDen gamma r.1 x' e0' (iter + 1)
termination_by 2001 - iter
decreasing_by
  rename_i h
  rw [not_or] at h
  omega

/-- Embedding of `solve_circuit` as claim C1 describes the convergence test (fixed
denominator `e0`). -/
noncomputable def solve_circuit_fixedDen (c : Circuit) (gamma : ℝ) :
    Option (Vec (n_matrix_size c)) :=
  solveLoopFixedDen gamma c (fun _ => 0) 0 0

/-- The convergence loop as the *amended* claim C1 describes it: on the
first pass the denominator is `norm(dx)` itself (so `e = 1`); on every later
pass the denominator is the norm of the iterate produced by the previous
pass (the incoming `x`), because the code reassigns `norm = np.linalg.norm(x)`
at the end of each pass.  No separate norm state is carried. -/
noncomputable def solveLoopByPrevIter {n : ℕ} (gamma : ℝ) (c : Circuit)
    (x : Vec n) (iter : ℕ) : Option (Vec n) :=
  let r := make_system_matrix c x
  match npSolve r.2.1 r.2.2 with
  | none => none
  | some dx =>
    let x' := if iter = 0 then dx else fun i => x i + gamma * dx i
    let e := npNorm dx / (if iter = 0 then npNorm dx else npNorm x)
    if e < 0.001 ∨ iter > 2000 then some x'
    else solveLoopByPrevIter gamma r.1 x' (iter + 1)
termination_by 2001 - iter
decreasing_by
  rename_i h
  rw [not_or] at h
  omega

/-- Claim C2's "number of nodes excluding ground". -/
def nonGroundNodeCount (c : Circuit) : ℕ :=
  (c.nodes_dict.filter (fun q => !(q.1 == "0"))).length

/-- Number of `nodes_dict` entries carrying the ground name. -/
def groundEntryCount (c : Circuit) : ℕ :=
  (c.nodes_dict.filter (fun q => q.1 == "0")).length

/-- The values of the `MMFSource` elements, in element-list order. -/
def mmfValues (es : List Element) : List ℝ :=
  es.filterMap (fun e =>
    match e with
    | Element.mmfSource s => some s.value
    | _ => none)

/-- The `mur` field of an element (0 for sources); projection used to state
facts about `update_mur`. -/
def elemMur : Element → ℝ
  | Element.permeance p => p.mur
  | _ => 0

/-- Claim C9's circuit class, element-wise: only `Permeance` elements with no
bound material model (and the `mur_d = mur` pairing `Permeance.__init__`
establishes for caller-supplied constants) besides `MMFSource`s. -/
def LinearOrMMF : Element → Prop
  | Element.permeance p => p.model_label = none ∧ p.mur_d = p.mur
  | Element.mmfSource _ => True
  | Element.phiSource _ => False

/-- The raw assembly of `make_system_matrix` (both stamping loops, before the
`b - A·u_prev` adjustment), as a function of the element list already
processed by `update_mur`. -/
noncomputable def rawStamp (n : ℕ) (c : Circuit) : ℕ × Mat n × Mat n × Vec n :=
  c.elements.foldl stampMMF
    (get_nodes_number c - 1,
      c.elements.foldl stamp1 (fun _ _ => 0, fun _ _ => 0, fun _ => 0))

/-! ### Concrete instances used in counterexamples and witnesses. -/

/-- A concrete `B(H)` interpolant (values only matter at the four field
strengths the counterexample run of claim C1 visits). -/
noncomputable def hbC1 : ℝ → ℝ := fun t =>
  if t = 10005 then 2001 else if t = 1 ∨ t = 2 ∨ t = 10000 then 1 / 2 else 0

/-- A concrete `u(H)` interpolant for the same run (chosen so the forward
differences at 2, 10000 and 10005 give convenient Jacobian entries). -/
noncomputable def huC1 : ℝ → ℝ := fun t =>
  if t = 2 + 1e-3 then -2499 / 19996000
  else if t = 10000 + 1e-3 then 1999 / 200000000000
  else if t = 10005 + 1e-3 then 9999999 / 50025000
  else 0

/-- The material model of the C1 counterexample circuit. -/
noncomputable def mxC1 : bh_model := ⟨hbC1, huC1⟩

/-- The model-bound permeance of the C1 counterexample circuit, with the
current `(mur, mur_d)` cache made a parameter (the solver overwrites it each
pass).  Geometry `w = d = l = 1000` makes `P = mu0·mur` and `H = |MMF|`. -/
def pRC1 (a b : ℝ) : Permeance :=
  ⟨"R1", 1, 0, a, b, 1000, 1000, 1000, some "M"⟩

/-- The flux source of the C1 counterexample circuit. -/
def sIC1 : PHISource := ⟨"I1", 1, 0, 1⟩

/-- The C1 counterexample circuit (ground, one node, one model-bound
permeance, one flux source; one unknown), parametrised by the permeance's
current `(mur, mur_d)` cache. -/
noncomputable def cxWith (a b : ℝ) : Circuit :=
  ⟨"cx", [Element.permeance (pRC1 a b), Element.phiSource sIC1],
    [("0", 0), ("a", 1)], [("M", mxC1)]⟩

/-- The C1 counterexample circuit as built (initial `mur = mur_d = 1`). -/
noncomputable def cx : Circuit := cxWith 1 1

/-- C9 counterexample: a circuit in the claimed class (no permeances at all,
exactly one `MMFSource` between two non-ground nodes) whose assembled system
matrix is singular, so the solve raises instead of converging. -/
def cSing : Circuit :=
  ⟨"sing", [Element.mmfSource ⟨"V1", 1, 2, 5⟩],
    [("0", 0), ("a", 1), ("b", 2)], []⟩

/-- A minimal linear circuit: ground, one node, one `MMFSource` of value 1. -/
def cMMF : Circuit :=
  ⟨"m1", [Element.mmfSource ⟨"V1", 1, 0, 1⟩], [("0", 0), ("a", 1)], []⟩

/-- A ground + two nodes circuit with one `MMFSource` of value 7 (used to
witness the C2 unknown-count/placement statement). -/
def cMMF7 : Circuit :=
  ⟨"m7", [Element.mmfSource ⟨"V2", 1, 2, 7⟩],
    [("0", 0), ("a", 1), ("b", 2)], []⟩

/-- C2 counterexample: a circuit reached through the construction API that
never registers the ground name (a single `add_node "a"` on a fresh circuit). -/
def cNoGround : Circuit := (add_node (emptyCircuit "t") "a").2

/-- Material model used in the C3 counterexample: `B(H) = H²`, so that
`mur(H) = H/mu0` distinguishes different field strengths. -/
noncomputable def mxC3 : bh_model := ⟨fun t => t ^ 2, fun _ => 0⟩

/-- The bound permeance of the C3 counterexample (`l = 1`, terminals node 1
and ground). -/
def pC3 : Permeance := ⟨"R1", 1, 0, 1, 1, 1, 1, 1, some "M"⟩

/-! ### Helper lemmas. -/

theorem mu0_pos : 0 < mu0 := by
  unfold mu0
  positivity

theorem mu0_ne : mu0 ≠ 0 := ne_of_gt mu0_pos

theorem npNorm_one_dim (v : Vec 1) : npNorm v = |v 0| := by
  unfold npNorm
  rw [Fin.sum_univ_one, Real.sqrt_sq_eq_abs]

theorem npNorm_nonneg {n : ℕ} (v : Vec n) : 0 ≤ npNorm v := Real.sqrt_nonneg _

theorem npNorm_pos {n : ℕ} (v : Vec n) (i : Fin n) (h : v i ≠ 0) : 0 < npNorm v := by
  unfold npNorm
  apply Real.sqrt_pos.mpr
  refine Finset.sum_pos' (fun j _ => sq_nonneg _) ⟨i, Finset.mem_univ i, ?_⟩
  exact lt_of_le_of_ne (sq_nonneg _) (Ne.symm (pow_ne_zero 2 h))

theorem npSolve_sol {n : ℕ} (A : Mat n) (b dx : Vec n) (h : npSolve A b = some dx) :
    A.mulVec dx = b := by
  unfold npSolve at h
  split at h
  · exact absurd h (by simp)
  · rename_i hdet
    obtain rfl : dx = A⁻¹.mulVec b := (Option.some.inj h).symm
    rw [Matrix.mulVec_mulVec, Matrix.mul_nonsing_inv A (isUnit_iff_ne_zero.mpr hdet),
      Matrix.one_mulVec]

theorem npSolve_none_iff {n : ℕ} (A : Mat n) (b : Vec n) :
    npSolve A b = none ↔ ¬ IsUnit A.det := by
  unfold npSolve
  by_cases h : A.det = 0 <;> simp [h, isUnit_iff_ne_zero]

theorem npSolve_fin_one (A : Mat 1) (b : Vec 1) (h : A 0 0 ≠ 0) :
    npSolve A b = some (fun _ => b 0 / A 0 0) := by
  unfold npSolve
  rw [if_neg (by rw [Matrix.det_fin_one]; exact h)]
  congr 1
  funext i
  rw [Matrix.inv_def, Matrix.adjugate_fin_one, Matrix.det_fin_one, Ring.inverse_eq_inv,
    Matrix.smul_mulVec_assoc, Matrix.one_mulVec]
  show (A 0 0)⁻¹ * b i = b 0 / A 0 0
  rw [Subsingleton.elim i 0, inv_mul_eq_div]

theorem add_node_models (c : Circuit) (s : String) : (add_node c s).2.models = c.models := by
  unfold add_node
  split <;> rfl

theorem add_node_elements (c : Circuit) (s : String) :
    (add_node c s).2.elements = c.elements := by
  unfold add_node
  split <;> rfl

/-- The carried `norm` state of `solveLoop` equals the norm of the incoming
iterate on every pass after the first, so the loop agrees with
`solveLoopByPrevIter`. -/
theorem solveLoop_prevIter_aux {n : ℕ} (gamma : ℝ) :
    ∀ (k : ℕ) (c : Circuit) (x : Vec n) (norm : ℝ) (iter : ℕ),
      2001 - iter ≤ k → (iter = 0 ∨ norm = npNorm x) →
      solveLoop gamma c x norm iter = solveLoopByPrevIter gamma c x iter := by
  intro k
  induction k with
  | zero =>
    intro c x norm iter hk hnorm
    rw [solveLoop.eq_def, solveLoopByPrevIter.eq_def]
    dsimp only
    cases hs : npSolve (make_system_matrix c x).2.1 (make_system_matrix c x).2.2 with
    | none => rfl
    | some dx =>
      dsimp only
      rw [if_pos (Or.inr (by omega : iter > 2000)), if_pos (Or.inr (by omega : iter > 2000))]
      unfold nextIterate
      rfl
  | succ k ih =>
    intro c x norm iter hk hnorm
    rw [solveLoop.eq_def, solveLoopByPrevIter.eq_def]
    dsimp only
    cases hs : npSolve (make_system_matrix c x).2.1 (make_system_matrix c x).2.2 with
    | none => rfl
    | some dx =>
      dsimp only
      have hden : (if iter = 0 then npNorm dx else norm) =
          (if iter = 0 then npNorm dx else npNorm x) := by
        rcases hnorm with h0 | hn
        · rw [if_pos h0, if_pos h0]
        · rw [hn]
      rw [hden]
      by_cases hstop : npNorm dx / (if iter = 0 then npNorm dx else npNorm x) < 0.001
          ∨ iter > 2000
      · rw [if_pos hstop, if_pos hstop]
        unfold nextIterate
        rfl
      · rw [if_neg hstop, if_neg hstop]
        have hiter : iter ≤ 2000 := by
          rw [not_or] at hstop
          omega
        exact ih (make_system_matrix c x).1 (nextIterate gamma x iter dx) _ (iter + 1)
          (by omega) (Or.inr rfl)

theorem vget_vset_self {n : ℕ} (x : Vec n) (i : ℕ) (v : ℝ) (h : i < n) :
    vget (vset x i v) i = v := by
  unfold vget vset
  rw [dif_pos h]
  simp

theorem vget_vset_ne {n : ℕ} (x : Vec n) (i j : ℕ) (v : ℝ) (h : j ≠ i) :
    vget (vset x i v) j = vget x j := by
  unfold vget vset
  by_cases hj : j < n
  · rw [dif_pos hj, dif_pos hj, if_neg h]
  · rw [dif_neg hj, dif_neg hj]

/-- Elements after the currently pending MMF index leave every
right-hand-side entry strictly below that index untouched. -/
theorem stampMMF_b_preserved {n : ℕ} :
    ∀ (es : List Element) (st : ℕ × Mat n × Mat n × Vec n) (k : ℕ),
      k < st.1 → vget ((es.foldl stampMMF st).2.2.2) k = vget st.2.2.2 k := by
  intro es
  induction es with
  | nil => intro st k _; rfl
  | cons e tl ih =>
    intro st k hk
    rw [List.foldl_cons]
    cases e with
    | permeance p => exact ih st k hk
    | phiSource s => exact ih st k hk
    | mmfSource s =>
      have h1 : (stampMMF st (Element.mmfSource s)).1 = st.1 + 1 := rfl
      have h2 : (stampMMF st (Element.mmfSource s)).2.2.2 =
          vset st.2.2.2 st.1 (1.0 * s.MMF) := rfl
      rw [ih (stampMMF st (Element.mmfSource s)) k (by omega), h2,
        vget_vset_ne st.2.2.2 st.1 k (1.0 * s.MMF) (by omega)]

/-- The `j`-th MMF source (in element order) writes its value into the
right-hand side at auxiliary position `start + j`. -/
theorem stampMMF_b_entry {n : ℕ} :
    ∀ (es : List Element) (st : ℕ × Mat n × Mat n × Vec n) (j : ℕ),
      j < (mmfValues es).length → st.1 + j < n →
      vget ((es.foldl stampMMF st).2.2.2) (st.1 + j)
        = 1.0 * (mmfValues es).getD j 0 := by
  intro es
  induction es with
  | nil =>
    intro st j hj _
    simp [mmfValues] at hj
  | cons e tl ih =>
    intro st j hj hk
    rw [List.foldl_cons]
    cases e with
    | permeance p =>
      have hv : mmfValues (Element.permeance p :: tl) = mmfValues tl := rfl
      rw [hv] at hj ⊢
      exact ih st j hj hk
    | phiSource s =>
      have hv : mmfValues (Element.phiSource s :: tl) = mmfValues tl := rfl
      rw [hv] at hj ⊢
      exact ih st j hj hk
    | mmfSource s =>
      have hv : mmfValues (Element.mmfSource s :: tl) = s.value :: mmfValues tl := rfl
      have h1 : (stampMMF st (Element.mmfSource s)).1 = st.1 + 1 := rfl
      have h2 : (stampMMF st (Element.mmfSource s)).2.2.2 =
          vset st.2.2.2 st.1 (1.0 * s.MMF) := rfl
      rw [hv] at hj ⊢
      cases j with
      | zero =>
        rw [Nat.add_zero] at hk ⊢
        rw [stampMMF_b_preserved tl (stampMMF st (Element.mmfSource s)) st.1
          (by rw [h1]; omega), h2, vget_vset_self st.2.2.2 st.1 (1.0 * s.MMF) hk]
        rfl
      | succ j' =>
        have hgo := ih (stampMMF st (Element.mmfSource s)) j'
          (by simpa using hj) (by rw [h1]; omega)
        rw [h1] at hgo
        have harith : st.1 + 1 + j' = st.1 + (j' + 1) := by omega
        rw [harith] at hgo
        rw [hgo]
        rfl

/-- Embedding of `get_MMFs_number` counts exactly the entries of `mmfValues`. -/
theorem get_MMFs_number_eq_length :
    ∀ (es : List Element) (acc : ℕ),
      es.foldl (fun count e =>
        match e with
        | Element.mmfSource _ => count + 1
        | _ => count) acc = acc + (mmfValues es).length := by
  intro es
  induction es with
  | nil => intro acc; simp [mmfValues]
  | cons e tl ih =>
    intro acc
    rw [List.foldl_cons]
    cases e with
    | permeance p => rw [ih acc]; rfl
    | phiSource s => rw [ih acc]; rfl
    | mmfSource s =>
      rw [ih (acc + 1)]
      have : mmfValues (Element.mmfSource s :: tl) = s.value :: mmfValues tl := rfl
      rw [this, List.length_cons]
      omega

/-- Embedding of `update_mur` does not change which elements are MMF sources nor their
values. -/
theorem mmfValues_update {n : ℕ} (models : List (String × bh_model)) (x : Vec n) :
    ∀ (es : List Element), mmfValues (es.map (update_one models x)) = mmfValues es := by
  intro es
  induction es with
  | nil => rfl
  | cons e tl ih =>
    cases e with
    | permeance p =>
      have h1 : ∃ q, update_one models x (Element.permeance p) = Element.permeance q := by
        unfold update_one
        repeat' split
        all_goals exact ⟨_, rfl⟩
      obtain ⟨q, hq⟩ := h1
      rw [List.map_cons, hq]
      show mmfValues (tl.map (update_one models x)) = mmfValues tl
      exact ih
    | phiSource s =>
      rw [List.map_cons]
      show mmfValues (tl.map (update_one models x)) = mmfValues tl
      exact ih
    | mmfSource s =>
      rw [List.map_cons]
      show s.value :: mmfValues (tl.map (update_one models x)) = s.value :: mmfValues tl
      rw [ih]

theorem npNorm_zero_fun {n : ℕ} : npNorm (fun _ : Fin n => (0 : ℝ)) = 0 := by
  unfold npNorm
  simp

/-- An all-linear element list leaves `update_mur` without effect. -/
theorem update_mur_linear {n : ℕ} (c : Circuit) (x : Vec n)
    (hlin : ∀ e ∈ c.elements, LinearOrMMF e) : update_mur c x = c := by
  unfold update_mur
  have hmap : c.elements.map (update_one c.models x) = c.elements := by
    conv_rhs => rw [← List.map_id c.elements]
    apply List.map_congr_left
    intro e he
    cases e with
    | permeance p =>
      have hl := hlin _ he
      unfold LinearOrMMF at hl
      simp only [update_one, hl.1, id]
    | mmfSource s => rfl
    | phiSource s => rfl
  rw [hmap]

/-- Linear permeances stamp identical operating-point and Jacobian terms. -/
theorem stamp1_A_eq_dA {n : ℕ} :
    ∀ (es : List Element) (st : Mat n × Mat n × Vec n),
      (∀ e ∈ es, LinearOrMMF e) → st.1 = st.2.1 →
      (es.foldl stamp1 st).1 = (es.foldl stamp1 st).2.1 := by
  intro es
  induction es with
  | nil => intro st _ h; exact h
  | cons e tl ih =>
    intro st hlin heq
    rw [List.foldl_cons]
    apply ih _ (fun e' he' => hlin e' (List.mem_cons_of_mem _ he'))
    cases e with
    | permeance p =>
      have hl := hlin _ (List.mem_cons_self _ _)
      unfold LinearOrMMF at hl
      have hPd : Permeance.dP p = Permeance.P p := by
        unfold Permeance.dP Permeance.P
        rw [hl.2]
      show (stamp1 st (Element.permeance p)).1 = (stamp1 st (Element.permeance p)).2.1
      unfold stamp1
      dsimp only
      rw [hPd, heq]
    | mmfSource s => exact heq
    | phiSource s => exact heq

/-- The MMF stamping loop keeps equal matrices equal. -/
theorem stampMMF_A_eq_dA {n : ℕ} :
    ∀ (es : List Element) (st : ℕ × Mat n × Mat n × Vec n),
      st.2.1 = st.2.2.1 →
      (es.foldl stampMMF st).2.1 = (es.foldl stampMMF st).2.2.1 := by
  intro es
  induction es with
  | nil => intro st h; exact h
  | cons e tl ih =>
    intro st heq
    rw [List.foldl_cons]
    apply ih
    cases e with
    | permeance p => exact heq
    | phiSource s => exact heq
    | mmfSource s =>
      show (stampMMF st (Element.mmfSource s)).2.1 = (stampMMF st (Element.mmfSource s)).2.2.1
      unfold stampMMF
      dsimp only
      rw [heq]

/-- Without flux sources (the linear class has none) the first stamping loop
leaves the right-hand side untouched. -/
theorem stamp1_b_linear {n : ℕ} :
    ∀ (es : List Element) (st : Mat n × Mat n × Vec n),
      (∀ e ∈ es, LinearOrMMF e) → (es.foldl stamp1 st).2.2 = st.2.2 := by
  intro es
  induction es with
  | nil => intro st _; rfl
  | cons e tl ih =>
    intro st hlin
    rw [List.foldl_cons]
    have htl := ih (stamp1 st e) (fun e' he' => hlin e' (List.mem_cons_of_mem _ he'))
    rw [htl]
    cases e with
    | permeance p => rfl
    | mmfSource s => rfl
    | phiSource s => exact absurd (hlin _ (List.mem_cons_self _ _)) (by unfold LinearOrMMF; simp)

/-- For an all-linear circuit the assembly is independent of the iterate:
the system matrix is the raw stamped `dA` and the right-hand side is the
raw stamped `b` minus `A·u_prev`. -/
theorem mSM_linear {n : ℕ} (c : Circuit) (x : Vec n)
    (hlin : ∀ e ∈ c.elements, LinearOrMMF e) :
    make_system_matrix c x
      = (c, (rawStamp n c).2.2.1,
          fun i => (rawStamp n c).2.2.2 i - ((rawStamp n c).2.1).mulVec x i) := by
  unfold make_system_matrix
  rw [update_mur_linear c x hlin]
  rfl

/-! ### Evaluation lemmas for the C1 counterexample circuit. -/

theorem cx_update (a b : ℝ) (u : Vec 1) :
    update_mur (cxWith a b) u = cxWith (mxC1.mur |u 0|) (mxC1.mur_d |u 0|) := by
  have hH : Permeance.H (pRC1 a b) u = u 0 := by
    unfold Permeance.H Permeance.MMF pRC1 vget
    norm_num
  have h1 : update_one [("M", mxC1)] u (Element.permeance (pRC1 a b))
      = Element.permeance (pRC1 (mxC1.mur |Permeance.H (pRC1 a b) u|)
          (mxC1.mur_d |Permeance.H (pRC1 a b) u|)) := rfl
  have helems : (cxWith a b).elements.map (update_one (cxWith a b).models u)
      = [Element.permeance (pRC1 (mxC1.mur |u 0|) (mxC1.mur_d |u 0|)),
          Element.phiSource sIC1] := by
    rw [show (cxWith a b).elements
      = [Element.permeance (pRC1 a b), Element.phiSource sIC1] from rfl]
    rw [show (cxWith a b).models = [("M", mxC1)] from rfl]
    rw [List.map_cons, List.map_cons, List.map_nil, h1, hH]
    rfl
  unfold update_mur
  rw [helems]
  rfl

theorem cx_fold1 (m md : ℝ) :
    ([Element.permeance (pRC1 m md), Element.phiSource sIC1].foldl stamp1
        ((fun _ _ => 0 : Mat 1), (fun _ _ => 0 : Mat 1), (fun _ => 0 : Vec 1)))
      = ((fun _ _ => mu0 * m : Mat 1), (fun _ _ => mu0 * md : Mat 1),
          (fun _ => 1 : Vec 1)) := by
  rw [List.foldl_cons, List.foldl_cons, List.foldl_nil]
  have hperm : stamp1 ((fun _ _ => 0 : Mat 1), (fun _ _ => 0 : Mat 1), (fun _ => 0 : Vec 1))
      (Element.permeance (pRC1 m md))
      = ((fun _ _ => mu0 * m : Mat 1), (fun _ _ => mu0 * md : Mat 1),
          (fun _ => 0 : Vec 1)) := by
    unfold stamp1 pRC1
    dsimp only
    norm_num
    refine ⟨?_, ?_⟩
    · funext i j
      have hi : i.val = 0 := by omega
      have hj : j.val = 0 := by omega
      unfold madd mset mget
      rw [if_pos ⟨hi, hj⟩, dif_pos ⟨Nat.zero_lt_one, Nat.zero_lt_one⟩]
      simp only [Permeance.P]
      norm_num
      ring
    · funext i j
      have hi : i.val = 0 := by omega
      have hj : j.val = 0 := by omega
      unfold madd mset mget
      rw [if_pos ⟨hi, hj⟩, dif_pos ⟨Nat.zero_lt_one, Nat.zero_lt_one⟩]
      simp only [Permeance.dP]
      norm_num
      ring
  rw [hperm]
  have hphi : stamp1 ((fun _ _ => mu0 * m : Mat 1), (fun _ _ => mu0 * md : Mat 1),
        (fun _ => 0 : Vec 1)) (Element.phiSource sIC1)
      = ((fun _ _ => mu0 * m : Mat 1), (fun _ _ => mu0 * md : Mat 1),
          (fun _ => 1 : Vec 1)) := by
    unfold stamp1 sIC1
    dsimp only
    norm_num
    funext i
    have hi : i.val = 0 := by omega
    unfold vadd vset vget PHISource.PHI
    rw [if_pos hi, dif_pos Nat.zero_lt_one]
    norm_num
  rw [hphi]

theorem cx_mSM (a b : ℝ) (u : Vec 1) :
    make_system_matrix (cxWith a b) u
      = (cxWith (mxC1.mur |u 0|) (mxC1.mur_d |u 0|),
          (fun _ _ => mu0 * mxC1.mur_d |u 0| : Mat 1),
          (fun _ => 1 - mu0 * mxC1.mur |u 0| * u 0 : Vec 1)) := by
  unfold make_system_matrix
  rw [cx_update]
  dsimp only
  rw [show (cxWith (mxC1.mur |u 0|) (mxC1.mur_d |u 0|)).elements
    = [Element.permeance (pRC1 (mxC1.mur |u 0|) (mxC1.mur_d |u 0|)),
        Element.phiSource sIC1] from rfl]
  rw [cx_fold1]
  have hmmf : ∀ (st : ℕ × Mat 1 × Mat 1 × Vec 1),
      [Element.permeance (pRC1 (mxC1.mur |u 0|) (mxC1.mur_d |u 0|)),
        Element.phiSource sIC1].foldl stampMMF st = st := fun st => rfl
  rw [hmmf]
  refine congrArg _ (Prod.ext rfl ?_)
  funext i
  have hsum : Matrix.mulVec (fun _ _ => mu0 * mxC1.mur |u 0| : Mat 1) u i
      = mu0 * mxC1.mur |u 0| * u 0 := by
    unfold Matrix.mulVec Matrix.dotProduct
    rw [Fin.sum_univ_one]
  show (1 : ℝ) - Matrix.mulVec (fun _ _ => mu0 * mxC1.mur |u 0| : Mat 1) u i
      = 1 - mu0 * mxC1.mur |u 0| * u 0
  rw [hsum]

theorem mu0_mur_pos_val (H : ℝ) (h : 0 < H) : mu0 * mxC1.mur H = hbC1 H / H := by
  unfold bh_model.mur mxC1
  dsimp only
  rw [if_pos h, mul_comm, div_mul_cancel₀ _ mu0_ne]

theorem mu0_mur_d_pos_val (H : ℝ) (h : 0 < H) :
    mu0 * mxC1.mur_d H = hbC1 H / H + fp huC1 H * H := by
  unfold bh_model.mur_d
  rw [mul_add, mu0_mur_pos_val H h]
  congr 1
  rw [show mxC1.dmu_dH H = fp huC1 H from rfl]
  rw [show mu0 * (fp huC1 H / mu0 * H) = fp huC1 H * H * (mu0 / mu0) from by ring,
    div_self mu0_ne, mul_one]

theorem mu0_mur_zero_val : mu0 * mxC1.mur 0 = 1 / 2 := by
  unfold bh_model.mur mxC1
  dsimp only
  rw [if_neg (by norm_num)]
  rw [mul_comm, div_mul_cancel₀ _ mu0_ne]
  norm_num [hbC1]

theorem mu0_mur_d_zero_val : mu0 * mxC1.mur_d 0 = 1 / 2 := by
  unfold bh_model.mur_d
  rw [mul_add]
  rw [show mxC1.dmu_dH 0 / mu0 * 0 = 0 by ring]
  rw [mul_zero, add_zero, mu0_mur_zero_val]

theorem fp_huC1_2 : fp huC1 2 = -2499 / 19996 := by
  unfold fp huC1
  rw [if_pos rfl]
  rw [if_neg (by norm_num), if_neg (by norm_num), if_neg (by norm_num)]
  norm_num

theorem fp_huC1_10000 : fp huC1 10000 = 1999 / 200000000 := by
  unfold fp huC1
  rw [if_neg (by norm_num), if_pos rfl]
  rw [if_neg (by norm_num), if_neg (by norm_num), if_neg (by norm_num)]
  norm_num

theorem fp_huC1_10005 : fp huC1 10005 = 9999999 / 50025 := by
  unfold fp huC1
  rw [if_neg (by norm_num), if_neg (by norm_num), if_pos rfl]
  rw [if_neg (by norm_num), if_neg (by norm_num), if_neg (by norm_num)]
  norm_num

theorem mu0_mur_2_val : mu0 * mxC1.mur 2 = 1 / 4 := by
  rw [mu0_mur_pos_val 2 (by norm_num)]
  norm_num [hbC1]

theorem mu0_mur_d_2_val : mu0 * mxC1.mur_d 2 = 1 / 19996 := by
  rw [mu0_mur_d_pos_val 2 (by norm_num), fp_huC1_2]
  norm_num [hbC1]

theorem mu0_mur_10000_val : mu0 * mxC1.mur 10000 = 1 / 20000 := by
  rw [mu0_mur_pos_val 10000 (by norm_num)]
  norm_num [hbC1]

theorem mu0_mur_d_10000_val : mu0 * mxC1.mur_d 10000 = 1 / 10 := by
  rw [mu0_mur_d_pos_val 10000 (by norm_num), fp_huC1_10000]
  norm_num [hbC1]

theorem mu0_mur_10005_val : mu0 * mxC1.mur 10005 = 1 / 5 := by
  rw [mu0_mur_pos_val 10005 (by norm_num)]
  norm_num [hbC1]

theorem mu0_mur_d_10005_val : mu0 * mxC1.mur_d 10005 = 2000000 := by
  rw [mu0_mur_d_pos_val 10005 (by norm_num), fp_huC1_10005]
  norm_num [hbC1]

/-- One pass of `solveLoop` on the C1 circuit, with the current permeability
values abstracted into `P`/`dP` and the solved increment into `dx`. -/
theorem cx_step (a b gamma x0 norm P dP dx : ℝ) (iter : ℕ)
    (hP : mu0 * mxC1.mur |x0| = P) (hdP : mu0 * mxC1.mur_d |x0| = dP)
    (hdP0 : dP ≠ 0) (hdx : (1 - P * x0) / dP = dx) :
    solveLoop gamma (cxWith a b) (fun _ : Fin 1 => x0) norm iter
      = if |dx| / (if iter = 0 then |dx| else norm) < 0.001 ∨ iter > 2000
        then some (fun _ : Fin 1 => if iter = 0 then dx else x0 + gamma * dx)
        else solveLoop gamma (cxWith (mxC1.mur |x0|) (mxC1.mur_d |x0|))
          (fun _ : Fin 1 => if iter = 0 then dx else x0 + gamma * dx)
          |if iter = 0 then dx else x0 + gamma * dx| (iter + 1) := by
  rw [solveLoop.eq_def]
  dsimp only
  rw [cx_mSM]
  dsimp only
  rw [hP, hdP]
  rw [npSolve_fin_one (fun _ _ => dP) (fun _ => 1 - P * x0) hdP0]
  dsimp only
  rw [hdx]
  have hni : nextIterate gamma (fun _ : Fin 1 => x0) iter (fun _ : Fin 1 => dx)
      = (fun _ : Fin 1 => if iter = 0 then dx else x0 + gamma * dx) := by
    unfold nextIterate
    by_cases h : iter = 0
    · simp [h]
    · simp [h]
  rw [hni, npNorm_one_dim, npNorm_one_dim]

/-- One pass of the claimed fixed-denominator loop on the C1 circuit. -/
theorem cx_stepFD (a b gamma x0 e0 P dP dx : ℝ) (iter : ℕ)
    (hP : mu0 * mxC1.mur |x0| = P) (hdP : mu0 * mxC1.mur_d |x0| = dP)
    (hdP0 : dP ≠ 0) (hdx : (1 - P * x0) / dP = dx) :
    solveLoopFixedDen gamma (cxWith a b) (fun _ : Fin 1 => x0) e0 iter
      = if |dx| / (if iter = 0 then |dx| else e0) < 0.001 ∨ iter > 2000
        then some (fun _ : Fin 1 => if iter = 0 then dx else x0 + gamma * dx)
        else solveLoopFixedDen gamma (cxWith (mxC1.mur |x0|) (mxC1.mur_d |x0|))
          (fun _ : Fin 1 => if iter = 0 then dx else x0 + gamma * dx)
          (if iter = 0 then |dx| else e0) (iter + 1) := by
  rw [solveLoopFixedDen.eq_def]
  dsimp only
  rw [cx_mSM]
  dsimp only
  rw [hP, hdP]
  rw [npSolve_fin_one (fun _ _ => dP) (fun _ => 1 - P * x0) hdP0]
  dsimp only
  rw [hdx]
  have hni : (if iter = 0 then (fun _ : Fin 1 => dx)
        else fun _ : Fin 1 => x0 + gamma * dx)
      = (fun _ : Fin 1 => if iter = 0 then dx else x0 + gamma * dx) := by
    by_cases h : iter = 0
    · simp [h]
    · simp [h]
  rw [hni, npNorm_one_dim]

/-! ### Claim theorems. -/

/-- C4: `create_node` raises on any repeated name, *including* the ground
name `'0'`: the second `create_node "0"` call on a fresh circuit raises
`ValueError`, although the method's own docstring promises the ground node
is exempt.  The first conjunct shows the failing state is reached by the
construction API itself. -/
theorem C4_create_node_ground_raises :
    create_node (emptyCircuit "t") "0" =
      Except.ok { title := "t", elements := [], nodes_dict := [("0", 0)], models := [] }
    ∧ create_node { title := "t", elements := [], nodes_dict := [("0", 0)], models := [] } "0" =
      Except.error "ValueError: node exists" := by
  constructor
  · rfl
  · rfl

/-- C6: for every `Permeance`, `P() = mu0*mur*w*d/l*1e-3`, `dP()` is the same
formula with `mur_d`, and both scale linearly in `w`, `d` and `mur`
(resp. `mur_d`) and inversely in `l`. -/
theorem C6_permeance_formula_scaling :
    ∀ (p : Permeance) (a : ℝ),
      p.P = mu0 * p.mur * p.w * p.d / p.l * 1e-3
      ∧ p.dP = mu0 * p.mur_d * p.w * p.d / p.l * 1e-3
      ∧ Permeance.P { p with w := a * p.w } = a * p.P
      ∧ Permeance.P { p with d := a * p.d } = a * p.P
      ∧ Permeance.P { p with mur := a * p.mur } = a * p.P
      ∧ Permeance.dP { p with w := a * p.w } = a * p.dP
      ∧ Permeance.dP { p with d := a * p.d } = a * p.dP
      ∧ Permeance.dP { p with mur_d := a * p.mur_d } = a * p.dP
      ∧ Permeance.P { p with l := a * p.l } = p.P / a
      ∧ Permeance.dP { p with l := a * p.l } = p.dP / a := by
  intro p a
  unfold Permeance.P Permeance.dP
  dsimp only
  refine ⟨rfl, rfl, by ring, by ring, by ring, by ring, by ring, by ring, by ring, by ring⟩

/-- C7: `mur(H)` is total — for `H <= 0` (in particular `H = 0`) it takes the
fallback branch `B(1)/mu0` instead of dividing by `H`; for `H > 0` it
returns `B(H)/H/mu0`. -/
theorem C7_mur_nonpositive_fallback :
    ∀ (m : bh_model) (H : ℝ),
      (H ≤ 0 → m.mur H = m.hb 1 / mu0) ∧ (0 < H → m.mur H = m.hb H / H / mu0) := by
  intro m H
  constructor
  · intro h
    unfold bh_model.mur
    rw [if_neg (not_lt.mpr h)]
  · intro h
    unfold bh_model.mur
    rw [if_pos h]

/-- Witness for C7 at the concrete model `hb = hu = id`, at `H = 0` and
`H = 2`. -/
theorem C7_mur_nonpositive_fallback_witness :
    bh_model.mur ⟨fun t => t, fun t => t⟩ 0 = (1 : ℝ) / mu0
    ∧ bh_model.mur ⟨fun t => t, fun t => t⟩ 2 = 2 / 2 / mu0 :=
  ⟨(C7_mur_nonpositive_fallback ⟨fun t => t, fun t => t⟩ 0).1 le_rfl,
    (C7_mur_nonpositive_fallback ⟨fun t => t, fun t => t⟩ 2).2 (by norm_num)⟩

/-- C1 counterexample: on the concrete one-unknown nonlinear circuit `cx`
(`gamma = 1`), the solver's error denominator is *not* the fixed `e0`: the
code stops after its third pass with `x = 10005` (its error there is
`|dx|/‖x_prev‖ = 5/10000 < 0.001`), while the loop the claim describes
(`solveLoopFixedDen`, fixed denominator `e0 = ‖dx₀‖ = 2`) sees
`5/2 = 2.5 ≥ 0.001` at that pass, iterates once more, and returns
`10004.999`.  Hence the claim's description of `solve_circuit` is false at
this input. -/
theorem C1_fixed_denominator_counterexample :
    solve_circuit cx 1 = some (fun _ => 10005)
    ∧ solve_circuit_fixedDen cx 1 = some (fun _ => 10004999 / 1000)
    ∧ solve_circuit cx 1 ≠ solve_circuit_fixedDen cx 1 := by
  have hP0 : mu0 * mxC1.mur |(0 : ℝ)| = 1 / 2 := by
    rw [abs_zero]
    exact mu0_mur_zero_val
  have hD0 : mu0 * mxC1.mur_d |(0 : ℝ)| = 1 / 2 := by
    rw [abs_zero]
    exact mu0_mur_d_zero_val
  have hP2 : mu0 * mxC1.mur |(2 : ℝ)| = 1 / 4 := by
    rw [show |(2 : ℝ)| = 2 by norm_num]
    exact mu0_mur_2_val
  have hD2 : mu0 * mxC1.mur_d |(2 : ℝ)| = 1 / 19996 := by
    rw [show |(2 : ℝ)| = 2 by norm_num]
    exact mu0_mur_d_2_val
  have hP4 : mu0 * mxC1.mur |(10000 : ℝ)| = 1 / 20000 := by
    rw [show |(10000 : ℝ)| = 10000 by norm_num]
    exact mu0_mur_10000_val
  have hD4 : mu0 * mxC1.mur_d |(10000 : ℝ)| = 1 / 10 := by
    rw [show |(10000 : ℝ)| = 10000 by norm_num]
    exact mu0_mur_d_10000_val
  have hP5 : mu0 * mxC1.mur |(10005 : ℝ)| = 1 / 5 := by
    rw [show |(10005 : ℝ)| = 10005 by norm_num]
    exact mu0_mur_10005_val
  have hD5 : mu0 * mxC1.mur_d |(10005 : ℝ)| = 2000000 := by
    rw [show |(10005 : ℝ)| = 10005 by norm_num]
    exact mu0_mur_d_10005_val
  have hcode : @solveLoop 1 1 (cxWith 1 1) (fun _ => 0) 0 0
      = some (fun _ => 10005) := by
    rw [cx_step 1 1 1 0 0 (1 / 2) (1 / 2) 2 0 hP0 hD0 (by norm_num) (by norm_num)]
    norm_num
    rw [cx_step (mxC1.mur 0) (mxC1.mur_d 0) 1 2 2 (1 / 4) (1 / 19996) 9998 1
      hP2 hD2 (by norm_num) (by norm_num)]
    norm_num
    rw [cx_step (mxC1.mur 2) (mxC1.mur_d 2) 1 10000 10000 (1 / 20000) (1 / 10) 5 2
      hP4 hD4 (by norm_num) (by norm_num)]
    norm_num
  have hfd : @solveLoopFixedDen 1 1 (cxWith 1 1) (fun _ => 0) 0 0
      = some (fun _ => 10004999 / 1000) := by
    rw [cx_stepFD 1 1 1 0 0 (1 / 2) (1 / 2) 2 0 hP0 hD0 (by norm_num) (by norm_num)]
    norm_num
    rw [cx_stepFD (mxC1.mur 0) (mxC1.mur_d 0) 1 2 2 (1 / 4) (1 / 19996) 9998 1
      hP2 hD2 (by norm_num) (by norm_num)]
    norm_num
    rw [cx_stepFD (mxC1.mur 2) (mxC1.mur_d 2) 1 10000 2 (1 / 20000) (1 / 10) 5 2
      hP4 hD4 (by norm_num) (by norm_num)]
    norm_num
    rw [cx_stepFD (mxC1.mur 10000) (mxC1.mur_d 10000) 1 10005 2 (1 / 5) 2000000
      (-1 / 1000) 3 hP5 hD5 (by norm_num) (by norm_num)]
    rw [show |(-1 / 1000 : ℝ)| = 1 / 1000 by
      rw [abs_of_nonpos (by norm_num)]
      norm_num]
    norm_num
  refine ⟨hcode, hfd, ?_⟩
  intro h
  have h' : (some (fun _ : Fin 1 => (10005 : ℝ)) : Option (Vec 1))
      = some (fun _ => 10004999 / 1000) := by
    rw [← hcode, ← hfd]
    exact h
  have h'' := congrFun (Option.some.inj h') 0
  norm_num at h''

/-- C9 (amended): for every circuit made of linear permeances only (no
bound model; `mur_d = mur`, as `Permeance.__init__` sets for caller
constants) plus exactly one `MMFSource` of *nonzero* value, with at least
one registered node and an *invertible* assembled system matrix, the solver
converges within 2 iterations: it returns the exact first-pass solution
`s = J⁻¹·b`, and the pass entered at `iter = 1` from `s` stops immediately
(its `dx` is exactly zero, so `e = 0 < 0.001` — the CONVERGED branch, as
`iter = 1 ≤ 2000`).  The claim as stated fails when the matrix is singular
(the solve raises instead — see the counterexample); for a zero MMF value
NumPy computes `0.0/0.0 = NaN` in the first error ratio (outside this real
embedding) and the loop exhausts instead. -/
theorem C9_linear_converges_in_two_passes (c : Circuit) (gamma v : ℝ)
    (hlin : ∀ e ∈ c.elements, LinearOrMMF e)
    (hone : mmfValues c.elements = [v]) (hv : v ≠ 0)
    (hnodes : 1 ≤ get_nodes_number c)
    (hdet : ((rawStamp (n_matrix_size c) c).2.2.1).det ≠ 0) :
    solve_circuit c gamma
        = some (((rawStamp (n_matrix_size c) c).2.2.1)⁻¹.mulVec
            ((rawStamp (n_matrix_size c) c).2.2.2))
    ∧ solveLoop gamma c
        (((rawStamp (n_matrix_size c) c).2.2.1)⁻¹.mulVec
          ((rawStamp (n_matrix_size c) c).2.2.2))
        (npNorm (((rawStamp (n_matrix_size c) c).2.2.1)⁻¹.mulVec
          ((rawStamp (n_matrix_size c) c).2.2.2))) 1
        = some (((rawStamp (n_matrix_size c) c).2.2.1)⁻¹.mulVec
            ((rawStamp (n_matrix_size c) c).2.2.2)) := by
  have hcount : get_MMFs_number c = (mmfValues c.elements).length := by
    unfold get_MMFs_number
    rw [get_MMFs_number_eq_length c.elements 0]
    omega
  have hsize : n_matrix_size c = get_nodes_number c := by
    unfold n_matrix_size
    rw [hcount, hone]
    simp
  have hAdA : (rawStamp (n_matrix_size c) c).2.1 = (rawStamp (n_matrix_size c) c).2.2.1 := by
    unfold rawStamp
    apply stampMMF_A_eq_dA
    exact stamp1_A_eq_dA c.elements (fun _ _ => 0, fun _ _ => 0, fun _ => 0) hlin rfl
  have hbentry : vget ((rawStamp (n_matrix_size c) c).2.2.2)
      (get_nodes_number c - 1 + 0) = 1.0 * v := by
    unfold rawStamp
    have h := @stampMMF_b_entry (n_matrix_size c) c.elements
      (get_nodes_number c - 1,
        c.elements.foldl stamp1 (fun _ _ => 0, fun _ _ => 0, fun _ => 0))
      0 (by rw [hone]; norm_num) (by omega)
    rw [h, hone]
    rfl
  have hb0 : (rawStamp (n_matrix_size c) c).2.2.2 ≠ (fun _ => 0) := by
    intro h
    rw [h] at hbentry
    have hz : vget (fun _ : Fin (n_matrix_size c) => (0 : ℝ))
        (get_nodes_number c - 1 + 0) = 0 := by
      unfold vget
      split <;> rfl
    rw [hz] at hbentry
    have : v = 0 := by linarith [hbentry]
    exact hv this
  have hsolve : npSolve ((rawStamp (n_matrix_size c) c).2.2.1)
      ((rawStamp (n_matrix_size c) c).2.2.2)
      = some (((rawStamp (n_matrix_size c) c).2.2.1)⁻¹.mulVec
          ((rawStamp (n_matrix_size c) c).2.2.2)) := by
    unfold npSolve
    rw [if_neg hdet]
  have hAs : ((rawStamp (n_matrix_size c) c).2.2.1).mulVec
      (((rawStamp (n_matrix_size c) c).2.2.1)⁻¹.mulVec
        ((rawStamp (n_matrix_size c) c).2.2.2))
      = (rawStamp (n_matrix_size c) c).2.2.2 :=
    npSolve_sol _ _ _ hsolve
  have hmulz : ∀ (M : Mat (n_matrix_size c)),
      M.mulVec (fun _ => 0) = (fun _ => 0) := by
    intro M
    funext i
    simp [Matrix.mulVec, Matrix.dotProduct]
  have hs_ne : (((rawStamp (n_matrix_size c) c).2.2.1)⁻¹.mulVec
      ((rawStamp (n_matrix_size c) c).2.2.2)) ≠ (fun _ => 0) := by
    intro h
    rw [h, hmulz] at hAs
    exact hb0 hAs.symm
  obtain ⟨i0, hi0⟩ := Function.ne_iff.mp hs_ne
  have hnorm_pos : 0 < npNorm (((rawStamp (n_matrix_size c) c).2.2.1)⁻¹.mulVec
      ((rawStamp (n_matrix_size c) c).2.2.2)) :=
    npNorm_pos _ i0 hi0
  have hpass1 : solveLoop gamma c
      (((rawStamp (n_matrix_size c) c).2.2.1)⁻¹.mulVec
        ((rawStamp (n_matrix_size c) c).2.2.2))
      (npNorm (((rawStamp (n_matrix_size c) c).2.2.1)⁻¹.mulVec
        ((rawStamp (n_matrix_size c) c).2.2.2))) 1
      = some (((rawStamp (n_matrix_size c) c).2.2.1)⁻¹.mulVec
          ((rawStamp (n_matrix_size c) c).2.2.2)) := by
    rw [solveLoop.eq_def]
    dsimp only
    rw [mSM_linear c _ hlin]
    dsimp only
    rw [hAdA]
    have hzero : (fun i => (rawStamp (n_matrix_size c) c).2.2.2 i
        - ((rawStamp (n_matrix_size c) c).2.2.1).mulVec
            (((rawStamp (n_matrix_size c) c).2.2.1)⁻¹.mulVec
              ((rawStamp (n_matrix_size c) c).2.2.2)) i)
        = (fun _ => 0) := by
      funext i
      rw [hAs]
      ring
    rw [hzero]
    have hsolve1 : npSolve ((rawStamp (n_matrix_size c) c).2.2.1)
        (fun _ => 0)
        = some (((rawStamp (n_matrix_size c) c).2.2.1)⁻¹.mulVec (fun _ => 0)) := by
      unfold npSolve
      rw [if_neg hdet]
    rw [hsolve1]
    dsimp only
    rw [hmulz]
    have hx1 : nextIterate gamma
        (((rawStamp (n_matrix_size c) c).2.2.1)⁻¹.mulVec
          ((rawStamp (n_matrix_size c) c).2.2.2)) 1 (fun _ => 0)
        = (((rawStamp (n_matrix_size c) c).2.2.1)⁻¹.mulVec
            ((rawStamp (n_matrix_size c) c).2.2.2)) := by
      unfold nextIterate
      rw [if_neg one_ne_zero]
      funext i
      simp
    rw [hx1, npNorm_zero_fun, zero_div]
    rw [if_pos (Or.inl (by norm_num))]
  refine ⟨?_, hpass1⟩
  show solveLoop gamma c (fun _ => 0) 0 0
      = some (((rawStamp (n_matrix_size c) c).2.2.1)⁻¹.mulVec
          ((rawStamp (n_matrix_size c) c).2.2.2))
  rw [solveLoop.eq_def]
  dsimp only
  rw [mSM_linear c _ hlin]
  dsimp only
  have hzero0 : (fun i => (rawStamp (n_matrix_size c) c).2.2.2 i
      - ((rawStamp (n_matrix_size c) c).2.1).mulVec (fun _ => 0) i)
      = (rawStamp (n_matrix_size c) c).2.2.2 := by
    funext i
    rw [hAdA, hmulz]
    ring
  rw [hzero0, hsolve]
  dsimp only
  have hx0 : nextIterate gamma (fun _ : Fin (n_matrix_size c) => (0 : ℝ)) 0
      (((rawStamp (n_matrix_size c) c).2.2.1)⁻¹.mulVec
        ((rawStamp (n_matrix_size c) c).2.2.2))
      = (((rawStamp (n_matrix_size c) c).2.2.1)⁻¹.mulVec
          ((rawStamp (n_matrix_size c) c).2.2.2)) := by
    unfold nextIterate
    rw [if_pos rfl]
  rw [hx0]
  have hif0 : (if (0 : ℕ) = 0
      then npNorm (((rawStamp (n_matrix_size c) c).2.2.1)⁻¹.mulVec
        ((rawStamp (n_matrix_size c) c).2.2.2))
      else (0 : ℝ))
      = npNorm (((rawStamp (n_matrix_size c) c).2.2.1)⁻¹.mulVec
          ((rawStamp (n_matrix_size c) c).2.2.2)) := if_pos rfl
  rw [hif0, div_self (ne_of_gt hnorm_pos)]
  rw [if_neg (by norm_num)]
  exact hpass1

/-- C9 counterexample: `cSing` is in the claimed class (only linear
permeances — none at all — and exactly one `MMFSource`, connected between
two non-ground nodes), yet `solve_circuit` raises the singular-system error
on the very first pass (returns `none`) instead of terminating in the
CONVERGED case within 2 iterations. -/
theorem C9_singular_counterexample : solve_circuit cSing 1 = none := by
  have hlin : ∀ e ∈ cSing.elements, LinearOrMMF e := by
    intro e he
    simp only [cSing, List.mem_singleton] at he
    subst he
    trivial
  have hM : (rawStamp 3 cSing).2.2.1
      = mset (mset (mset (mset (fun _ _ => (0 : ℝ)) 0 2 1.0) 1 2 (-1.0)) 2 0 1.0)
          2 1 (-1.0) := rfl
  have hdet0 : ((rawStamp 3 cSing).2.2.1).det = 0 := by
    rw [hM, Matrix.det_fin_three]
    norm_num [mset]
  have hnone : ∀ b : Vec 3, npSolve ((rawStamp 3 cSing).2.2.1) b = none := by
    intro b
    unfold npSolve
    rw [if_pos hdet0]
  show @solveLoop 3 1 cSing (fun _ => 0) 0 0 = none
  rw [solveLoop.eq_def]
  dsimp only
  rw [mSM_linear cSing _ hlin]
  dsimp only
  rw [hnone]

/-- Witness for C9 (amended) at the concrete circuit `cMMF` (ground, one
node, one MMF source of value 1), relaxation 1. -/
theorem C9_linear_converges_in_two_passes_witness :
    (1 : ℝ) ≠ 0
    ∧ solve_circuit cMMF 1
        = some (((rawStamp (n_matrix_size cMMF) cMMF).2.2.1)⁻¹.mulVec
            ((rawStamp (n_matrix_size cMMF) cMMF).2.2.2)) := by
  have hlin : ∀ e ∈ cMMF.elements, LinearOrMMF e := by
    intro e he
    simp only [cMMF, List.mem_singleton] at he
    subst he
    trivial
  have hM : (rawStamp 2 cMMF).2.2.1
      = mset (mset (fun _ _ => (0 : ℝ)) 0 1 1.0) 1 0 1.0 := rfl
  have hdet : ((rawStamp (n_matrix_size cMMF) cMMF).2.2.1).det ≠ 0 := by
    show ((rawStamp 2 cMMF).2.2.1).det ≠ 0
    rw [hM, Matrix.det_fin_two]
    norm_num [mset]
  have h := C9_linear_converges_in_two_passes cMMF 1 1 hlin rfl (by norm_num)
    (by norm_num [get_nodes_number, cMMF]) hdet
  exact ⟨by norm_num, h.1⟩

/-- C1 (amended): in `solve_circuit` the error of the first pass is
`norm(dx)/norm(dx) = 1`; on every later pass the denominator of
`e = norm(dx)/denominator` is the norm of the iterate produced by the
previous pass — the code reassigns `norm = np.linalg.norm(x)` after each
update, so only the second pass (where `x` is exactly the first `dx`) uses
the first pass's `norm(dx)`.  The loop stops (returning `some`, no error)
when `e < 0.001` (CONVERGED), or once `iter > 2000` (EXHAUSTED, last
iterate returned); a singular system gives `none` instead.  This is stated
as equality with `solveLoopByPrevIter`, the loop rewritten with exactly
that denominator policy. -/
theorem C1_convergence_denominator_amended :
    ∀ (c : Circuit) (gamma : ℝ),
      solve_circuit c gamma = solveLoopByPrevIter gamma c (fun _ => 0) 0 := by
  intro c gamma
  exact solveLoop_prevIter_aux gamma 2001 c (fun _ => 0) 0 0 (by omega) (Or.inl rfl)

/-- C5: the unknown vector starts at zero; each pass's `dx` solves
`J·dx = b` exactly; `np.linalg.solve` errors exactly when `J` is not
invertible; the update is `x := dx` on the first pass and
`x := x + gamma*dx` afterwards. -/
theorem C5_solver_step_structure :
    (∀ (c : Circuit) (gamma : ℝ),
        solve_circuit c gamma = solveLoop gamma c (fun _ => 0) 0 0)
    ∧ (∀ (n : ℕ) (A : Mat n) (b dx : Vec n), npSolve A b = some dx → A.mulVec dx = b)
    ∧ (∀ (n : ℕ) (A : Mat n) (b : Vec n), npSolve A b = none ↔ ¬ IsUnit A.det)
    ∧ (∀ (n : ℕ) (gamma : ℝ) (x dx : Vec n),
        nextIterate gamma x 0 dx = dx
        ∧ ∀ iter, iter ≠ 0 → nextIterate gamma x iter dx = fun i => x i + gamma * dx i) := by
  refine ⟨fun c gamma => rfl, fun n A b dx h => npSolve_sol A b dx h,
    fun n A b => npSolve_none_iff A b, fun n gamma x dx => ⟨rfl, fun iter hi => ?_⟩⟩
  unfold nextIterate
  rw [if_neg hi]

/-- Witness for C5: the solved `dx` satisfies `A·dx = b` at the concrete
1×1 system `2·dx = 6`, and the relaxed update at `iter = 1`, `gamma = 1/2`,
`x = 4`, `dx = 2` gives `5`. -/
theorem C5_solver_step_structure_witness :
    Matrix.mulVec (fun _ _ => (2 : ℝ) : Mat 1) (fun _ => 3) = (fun _ => 6)
    ∧ nextIterate (1 / 2) (fun _ : Fin 1 => (4 : ℝ)) 1 (fun _ => 2) = (fun _ => 5) := by
  constructor
  · apply C5_solver_step_structure.2.1 1 (fun _ _ => (2 : ℝ)) (fun _ => 6) (fun _ => 3)
    rw [npSolve_fin_one (fun _ _ => (2 : ℝ)) (fun _ => 6) (show (2 : ℝ) ≠ 0 by norm_num)]
    congr 1
    funext i
    norm_num
  · rw [(C5_solver_step_structure.2.2.2 1 (1 / 2) (fun _ : Fin 1 => (4 : ℝ))
      (fun _ => 2)).2 1 one_ne_zero]
    funext i
    norm_num

/-- C10: `add_permeance` resolves (and possibly creates) both node names
before any validation, raises exactly when `w = 0` or `d = 0` or `l = 0`
or the model label is non-null and unregistered, and appends no element
when it raises — but the created nodes remain. -/
theorem C10_add_permeance_not_atomic :
    ∀ (c : Circuit) (part_id n1 n2 : String) (mur w d l : ℝ)
      (model_label : Option String),
      (add_permeance c part_id n1 n2 mur w d l model_label).1.nodes_dict
          = (add_node (add_node c n1).2 n2).2.nodes_dict
      ∧ ((add_permeance c part_id n1 n2 mur w d l model_label).2.isSome ↔
          (w = 0 ∨ d = 0 ∨ l = 0
            ∨ ∃ lbl, model_label = some lbl ∧ lookupModel c.models lbl = none))
      ∧ ((add_permeance c part_id n1 n2 mur w d l model_label).2.isSome →
          (add_permeance c part_id n1 n2 mur w d l model_label).1.elements
            = c.elements) := by
  intro c part_id n1 n2 mur w d l model_label
  have hm1 : (add_node (add_node c n1).2 n2).2.models = c.models := by
    rw [add_node_models, add_node_models]
  have he1 : (add_node (add_node c n1).2 n2).2.elements = c.elements := by
    rw [add_node_elements, add_node_elements]
  by_cases hw : w = 0 ∨ d = 0 ∨ l = 0
  · refine ⟨?_, ?_, ?_⟩
    · simp [add_permeance, hw]
    · simp only [add_permeance, if_pos hw]
      simp [hw]
      tauto
    · intro _
      simp only [add_permeance, if_pos hw]
      exact he1
  · cases model_label with
    | none =>
      refine ⟨?_, ?_, ?_⟩
      · simp [add_permeance, hw]
      · simp only [add_permeance, if_neg hw]
        simp [hw]
      · intro hsome
        exfalso
        simp only [add_permeance, if_neg hw] at hsome
        simp at hsome
    | some lbl =>
      by_cases hnone : lookupModel c.models lbl = none
      · refine ⟨?_, ?_, ?_⟩
        · simp [add_permeance, hw, hm1, hnone]
        · simp only [add_permeance, if_neg hw]
          simp [hw, hm1, hnone]
        · intro _
          simp only [add_permeance, if_neg hw]
          simp only [hm1, hnone]
          simp [he1]
      · refine ⟨?_, ?_, ?_⟩
        · simp [add_permeance, hw, hm1, hnone]
        · simp only [add_permeance, if_neg hw]
          simp [hw, hm1, hnone]
        · intro hsome
          exfalso
          simp only [add_permeance, if_neg hw] at hsome
          simp [hm1, hnone] at hsome

/-- Witness for C10 at `w = 0` on a fresh circuit: the call raises, both
nodes it created remain registered, and no element was appended. -/
theorem C10_add_permeance_not_atomic_witness :
    (add_permeance (emptyCircuit "t") "R1" "a" "b" 1 0 1 1 none).1.nodes_dict
        = [("a", 1), ("b", 2)]
    ∧ (add_permeance (emptyCircuit "t") "R1" "a" "b" 1 0 1 1 none).2.isSome = true
    ∧ (add_permeance (emptyCircuit "t") "R1" "a" "b" 1 0 1 1 none).1.elements = [] := by
  obtain ⟨h1, h2, h3⟩ :=
    C10_add_permeance_not_atomic (emptyCircuit "t") "R1" "a" "b" 1 0 1 1 none
  have hsome : (add_permeance (emptyCircuit "t") "R1" "a" "b" 1 0 1 1 none).2.isSome = true :=
    h2.mpr (Or.inl rfl)
  refine ⟨?_, hsome, h3 hsome⟩
  rw [h1]
  rfl

/-- The `b - A·u_prev` adjustment is invisible at the zero iterate. -/
theorem vget_sub_mulVec_zero {n : ℕ} (B : Vec n) (A : Mat n) (k : ℕ) :
    vget (fun i => B i - A.mulVec (fun _ => 0) i) k = vget B k := by
  unfold vget
  by_cases hk : k < n
  · rw [dif_pos hk, dif_pos hk]
    have hz : A.mulVec (fun _ => 0) ⟨k, hk⟩ = 0 := by
      simp [Matrix.mulVec, Matrix.dotProduct]
    show B ⟨k, hk⟩ - A.mulVec (fun _ => 0) ⟨k, hk⟩ = B ⟨k, hk⟩
    rw [hz, sub_zero]
  · rw [dif_neg hk, dif_neg hk]

/-- C2 (amended): for every circuit whose node map registers the ground name
`'0'` (exactly once; the construction API can register a name only once),
the solver's matrix size `n_nodes + n_MMFs - 1` equals the number of
non-ground nodes plus the number of `MMFSource` elements, and the `j`-th
MMF source in element-list order owns the auxiliary slot `(n_nodes - 1) + j`
— right after the node-potential unknowns — as witnessed by its value
standing in that row of the assembled right-hand side at the solver's zero
initial iterate.  Without the ground registration the size falls short by
one (see the counterexample). -/
theorem C2_unknown_count_aux_order (c : Circuit) (hg : groundEntryCount c = 1) :
    n_matrix_size c = nonGroundNodeCount c + get_MMFs_number c
    ∧ ∀ j, j < (mmfValues c.elements).length →
        vget ((make_system_matrix c (fun _ : Fin (n_matrix_size c) => 0)).2.2)
            (get_nodes_number c - 1 + j)
          = (mmfValues c.elements).getD j 0 := by
  have hpart := @List.length_eq_length_filter_add (String × ℕ) c.nodes_dict
    (fun q => q.1 == "0")
  simp only [] at hpart
  unfold groundEntryCount at hg
  have hcount : get_MMFs_number c = (mmfValues c.elements).length := by
    unfold get_MMFs_number
    rw [get_MMFs_number_eq_length c.elements 0]
    omega
  have hnodes : 1 ≤ get_nodes_number c := by
    unfold get_nodes_number
    have hle := List.length_filter_le (fun (q : String × ℕ) => q.1 == "0") c.nodes_dict
    omega
  constructor
  · unfold n_matrix_size nonGroundNodeCount
    unfold get_nodes_number
    omega
  · intro j hj
    have hk : get_nodes_number c - 1 + j < n_matrix_size c := by
      unfold n_matrix_size
      omega
    unfold make_system_matrix
    have hc1nodes : get_nodes_number
        (update_mur c (fun _ : Fin (n_matrix_size c) => 0)) = get_nodes_number c := rfl
    have hc1elems : (update_mur c (fun _ : Fin (n_matrix_size c) => 0)).elements
        = c.elements.map (update_one c.models (fun _ => 0)) := rfl
    dsimp only
    rw [hc1nodes, hc1elems, vget_sub_mulVec_zero]
    have hmv := mmfValues_update c.models (fun _ : Fin (n_matrix_size c) => 0) c.elements
    have hb := @stampMMF_b_entry (n_matrix_size c)
      (c.elements.map (update_one c.models (fun _ : Fin (n_matrix_size c) => 0)))
      (get_nodes_number c - 1,
        (c.elements.map
            (update_one c.models (fun _ : Fin (n_matrix_size c) => 0))).foldl stamp1
          (fun _ _ => 0, fun _ _ => 0, fun _ => 0))
      j (by rw [hmv]; exact hj) (by exact hk)
    rw [hmv] at hb
    rw [hb]
    norm_num

/-- C2 counterexample: a circuit built through the API that never registers
the ground name (`add_node "a"` on a fresh circuit; node "a" gets internal
id 1).  Here the solver's size `n_nodes + n_MMFs - 1 = 1 + 0 - 1 = 0`, but
(nodes excluding ground) + (MMF count) `= 1 + 0 = 1`: the code subtracts 1
for the reserved ground index whether or not ground was ever registered. -/
theorem C2_unknown_count_counterexample :
    n_matrix_size cNoGround ≠ nonGroundNodeCount cNoGround + get_MMFs_number cNoGround := by
  decide

/-- Witness for C2 (amended) on the concrete circuit `cMMF7` (ground, two
nodes, one MMF source of value 7): size 3 = 2 + 1, and the MMF's auxiliary
right-hand-side slot is row `n_nodes - 1 + 0 = 2`. -/
theorem C2_unknown_count_aux_order_witness :
    groundEntryCount cMMF7 = 1
    ∧ n_matrix_size cMMF7 = nonGroundNodeCount cMMF7 + get_MMFs_number cMMF7
    ∧ vget ((make_system_matrix cMMF7 (fun _ : Fin (n_matrix_size cMMF7) => 0)).2.2)
        (get_nodes_number cMMF7 - 1 + 0) = (mmfValues cMMF7.elements).getD 0 0 := by
  have hg : groundEntryCount cMMF7 = 1 := by decide
  have h := C2_unknown_count_aux_order cMMF7 hg
  exact ⟨hg, h.1, h.2 0 (by decide)⟩

/-- C3 (amended): at the start of each assembly pass, a `Permeance` bound to
a registered model has its operating point recomputed as
`H = |MMF(x) / l * 1000|` (the code's `Permeance.H` carries a unit factor
1000, i.e. the potential difference divided by the path length *scaled by
1000*), and `mur`/`mur_d` refreshed at that `H`; an unbound `Permeance` is
left untouched. -/
theorem C3_update_mur_operating_point :
    ∀ (n : ℕ) (models : List (String × bh_model)) (x : Vec n) (p : Permeance),
      (∀ lbl m, p.model_label = some lbl → lookupModel models lbl = some m →
        update_one models x (Element.permeance p) =
          Element.permeance { p with
            mur := m.mur |Permeance.MMF p x / p.l * 1000|,
            mur_d := m.mur_d |Permeance.MMF p x / p.l * 1000| })
      ∧ (p.model_label = none →
          update_one models x (Element.permeance p) = Element.permeance p) := by
  intro n models x p
  constructor
  · intro lbl m hl hm
    simp only [update_one, hl, hm]
    rfl
  · intro hl
    simp only [update_one, hl]

/-- Witness for C3 (amended): the concrete bound permeance `pC3` is
refreshed, the same permeance unbound is untouched. -/
theorem C3_update_mur_operating_point_witness :
    update_one [("M", mxC3)] (fun _ : Fin 1 => (1 : ℝ)) (Element.permeance pC3)
      = Element.permeance { pC3 with
          mur := mxC3.mur |Permeance.MMF pC3 (fun _ : Fin 1 => (1 : ℝ)) / pC3.l * 1000|,
          mur_d := mxC3.mur_d |Permeance.MMF pC3 (fun _ : Fin 1 => (1 : ℝ)) / pC3.l * 1000| }
    ∧ update_one [("M", mxC3)] (fun _ : Fin 1 => (1 : ℝ))
        (Element.permeance { pC3 with model_label := none })
      = Element.permeance { pC3 with model_label := none } :=
  ⟨(C3_update_mur_operating_point 1 [("M", mxC3)] (fun _ => 1) pC3).1 "M" mxC3 rfl rfl,
    (C3_update_mur_operating_point 1 [("M", mxC3)] (fun _ => 1)
      { pC3 with model_label := none }).2 rfl⟩

/-- C3 counterexample: with `B(H) = H²` (so `mur(H) = H/mu0`), terminals at
node 1 and ground, `l = 1` and potential `x = (1)`, the code refreshes `mur`
to `mur(1000) = 1000/mu0`, not to the claimed `mur(|MMF(x)|/l) = mur(1) =
1/mu0`: `Permeance.H` multiplies by 1000. -/
theorem C3_update_mur_counterexample :
    elemMur (update_one [("M", mxC3)] (fun _ : Fin 1 => (1 : ℝ)) (Element.permeance pC3))
      ≠ mxC3.mur (|Permeance.MMF pC3 (fun _ : Fin 1 => (1 : ℝ))| / pC3.l) := by
  have hMMF : Permeance.MMF pC3 (fun _ : Fin 1 => (1 : ℝ)) = 1 := by
    unfold Permeance.MMF pC3 vget
    norm_num
  have hl : pC3.l = 1 := rfl
  have hL : elemMur (update_one [("M", mxC3)] (fun _ : Fin 1 => (1 : ℝ))
      (Element.permeance pC3)) = mxC3.mur 1000 := by
    simp only [update_one, elemMur]
    show mxC3.mur |Permeance.H pC3 (fun _ : Fin 1 => (1 : ℝ))| = mxC3.mur 1000
    unfold Permeance.H
    rw [hMMF, hl]
    norm_num
  have hR : mxC3.mur (|Permeance.MMF pC3 (fun _ : Fin 1 => (1 : ℝ))| / pC3.l)
      = mxC3.mur 1 := by
    rw [hMMF, hl]
    norm_num
  rw [hL, hR]
  have h1000 : mxC3.mur 1000 = 1000 / mu0 := by
    unfold bh_model.mur mxC3
    rw [if_pos (by norm_num : (1000 : ℝ) > 0)]
    norm_num
  have h1 : mxC3.mur 1 = 1 / mu0 := by
    unfold bh_model.mur mxC3
    rw [if_pos (by norm_num : (1 : ℝ) > 0)]
    norm_num
  rw [h1000, h1]
  intro hEq
  rw [div_eq_div_iff mu0_ne mu0_ne] at hEq
  have h2 := mul_right_cancel₀ mu0_ne hEq
  norm_num at h2

/-- C8: `mur_d(H) = mur(H) + H * (du/dH)/mu0` where `du/dH` is the forward
finite difference of the `u(H)` interpolant with step exactly `1e-3`. -/
theorem C8_mur_d_formula :
    ∀ (m : bh_model) (H : ℝ),
      m.mur_d H = m.mur H + H * (fp m.hu H / mu0)
      ∧ fp m.hu H = (m.hu (H + 1e-3) - m.hu H) / 1e-3 := by
  intro m H
  constructor
  · unfold bh_model.mur_d bh_model.dmu_dH
    ring
  · rfl

end EMC
